import Mathlib

/-!
Verification development for the `minhash-rs` MinHash sketch.

The crate stores a fixed array of `PERMUTATIONS` unsigned words
(`MinHash<Word, PERMUTATIONS>` in `src/minhash.rs`).  Inserting a value
hashes it to a 64-bit digest (SipHasher13 or FNV, keyed or unkeyed — the
hashers live in external crates, so a hash-family choice together with its
keys and the inserted value is modelled by the 64-bit digest `seed` it
produces), scrambles the digest with two rounds of SplitMix64
(`src/splitmix.rs`), truncates it to the word width (`src/primitive.rs`),
and then walks a per-width xorshift transform (`src/xorshift.rs`) to obtain
one pseudorandom word per slot; every slot keeps the minimum of its current
value and the corresponding stream word (`src/minhash.rs`,
`src/atomic.rs`).  Merging (`src/intersection.rs`) takes the elementwise
minimum of two sketches.

Machine words are modelled as `Nat` with explicit reduction `% 2 ^ w`
wherever the Rust code wraps.  A `[Word; PERMUTATIONS]` array is modelled
as a function `Fin PERMUTATIONS → Nat`.
-/

namespace MinhashRs

/-- The word widths the crate instantiates (`u8`, `u16`, `u32`, `u64`;
`usize` delegates to the `u64` code path in `src/xorshift.rs`). -/
inductive Width where
  | w8
  | w16
  | w32
  | w64
deriving DecidableEq, Repr

/-- Bit width of a word. -/
def Width.bits : Width → Nat
  | .w8 => 8
  | .w16 => 16
  | .w32 => 32
  | .w64 => 64

/-- `core::mem::size_of::<Word>()` in bytes. -/
def Width.bytes : Width → Nat
  | .w8 => 1
  | .w16 => 2
  | .w32 => 4
  | .w64 => 8

/-- `Maximal::maximal()` (src/maximal.rs): the all-ones word `Word::MAX`. -/
def maximal (w : Width) : Nat := 2 ^ w.bits - 1

/-- One `self ^= self << K` round of a xorshift on a `wbits`-bit word; the
left shift discards the bits shifted beyond the word, as in Rust. -/
def stepL (wbits k x : Nat) : Nat := (x ^^^ (x <<< k)) % 2 ^ wbits

/-- One `self ^= self >> K` round; no reduction is needed because the
result never exceeds its input's width. -/
def stepR (k x : Nat) : Nat := x ^^^ (x >>> k)

/-- `XorShift for u64` (src/xorshift.rs): shifts `<<13`, `>>7`, `<<17`. -/
def xorshift64 (x : Nat) : Nat := stepL 64 17 (stepR 7 (stepL 64 13 x))

/-- `XorShift for u32` (src/xorshift.rs): shifts `<<13`, `>>17`, `<<5`. -/
def xorshift32 (x : Nat) : Nat := stepL 32 5 (stepR 17 (stepL 32 13 x))

/-- `XorShift for u16` (src/xorshift.rs): widen to `u32`, run the 32-bit
xorshift, truncate back (`(*self as u32).xorshift() as u16`). -/
def xorshift16 (x : Nat) : Nat := xorshift32 x % 2 ^ 16

/-- `XorShift for u8` (src/xorshift.rs): a dedicated three-shift xorshift
with shifts `<<3`, `>>7`, `<<1` (not a truncation of a wider transform). -/
def xorshift8 (x : Nat) : Nat := stepL 8 1 (stepR 7 (stepL 8 3 x))

/-- The advance transform of each width. -/
def xorshiftW : Width → Nat → Nat
  | .w8 => xorshift8
  | .w16 => xorshift16
  | .w32 => xorshift32
  | .w64 => xorshift64

/-- `SplitMix for u64` (src/splitmix.rs), with the two wrapping
multiplications reduced `% 2 ^ 64`. -/
def splitmix (z : Nat) : Nat :=
  let z1 := ((z ^^^ (z >>> 30)) * 0xbf58476d1ce4e5b9) % 2 ^ 64
  let z2 := ((z1 ^^^ (z1 >>> 27)) * 0x94d049bb133111eb) % 2 ^ 64
  z2 ^^^ (z2 >>> 31)

/-- `Primitive::<Word>::convert` on a `u64` (src/primitive.rs): Rust `as`
truncation to the target width. -/
def convert (w : Width) (x : Nat) : Nat := x % 2 ^ w.bits

/-- The initial running hash of `iter_hashes_from_value` (src/atomic.rs,
lines 73-86): `hasher.finish().splitmix().splitmix().convert()`.  The
caller-chosen hash family, keys and value are abstracted by the 64-bit
digest `seed` that `hasher.finish()` returns. -/
def initHash (w : Width) (seed : Nat) : Nat := convert w (splitmix (splitmix seed))

/-- The word the hash stream of `iter_hashes_from_value` emits for slot
`i` (0-based): the loop body `hash = hash.xorshift(); hash` has applied the
advance transform `i + 1` times when it yields element `i`. -/
def hashAt (w : Width) (seed i : Nat) : Nat := (xorshiftW w)^[i + 1] (initHash w seed)

/-- A `MinHash<Word, P>` slot array (`[Word; P]`), as a function from slot
index to word value. -/
abbrev Sketch (P : Nat) := Fin P → Nat

/-- `MinHash::new()` (src/minhash.rs, lines 48-52): every slot starts at
`Word::maximal()`; `default()` calls `new()`. -/
def newSketch (w : Width) (P : Nat) : Sketch P := fun _ => maximal w

/-- Well-formedness: each slot holds an actual `Word` value, i.e. is at
most `Word::MAX`.  The Rust type of the array guarantees this. -/
def WF (w : Width) {P : Nat} (s : Sketch P) : Prop := ∀ i, s i ≤ maximal w

/-- `insert_with_siphashes13` and the other `insert_with_*` entry points
(src/minhash.rs, lines 157-164): each slot performs `word.set_min(hash)`
against the value's hash stream. -/
def insert (w : Width) {P : Nat} (s : Sketch P) (seed : Nat) : Sketch P :=
  fun i => min (s i) (hashAt w seed i.val)

/-- Folding `insert` over a list of digests, as `FromIterator`
(src/from_iter.rs) does. -/
def insertList (w : Width) {P : Nat} (s : Sketch P) (seeds : List Nat) : Sketch P :=
  seeds.foldl (fun t seed => insert w t seed) s

/-- `may_contain_value_with_*` (src/minhash.rs, lines 131-135): true iff
every slot `word.is_min(hash)`, i.e. `word <= hash`, against the value's
hash stream. -/
def mayContain (w : Width) {P : Nat} (s : Sketch P) (seed : Nat) : Bool :=
  decide (∀ i : Fin P, s i ≤ hashAt w seed i.val)

/-- `is_empty` (src/minhash.rs, lines 74-76): all slots equal
`Word::maximal()`. -/
def isEmpty (w : Width) {P : Nat} (s : Sketch P) : Bool :=
  decide (∀ i : Fin P, s i = maximal w)

/-- `is_full` (src/minhash.rs, lines 96-98): all slots equal
`Word::zero()`. -/
def isFull {P : Nat} (s : Sketch P) : Bool :=
  decide (∀ i : Fin P, s i = 0)

/-- `memory()` (src/minhash.rs, lines 410-412):
`PERMUTATIONS * size_of::<Word>() * 8` bits. -/
def memory (w : Width) (P : Nat) : Nat := P * w.bytes * 8

/-- The merge operator `BitAndAssign` (src/intersection.rs, lines 5-13):
elementwise `left.set_min(right)`. -/
def merge {P : Nat} (s t : Sketch P) : Sketch P := fun i => min (s i) (t i)

/-- `Index<usize> for MinHash` (src/minhash.rs, lines 466-472):
`&self.words[index]`.  Rust array indexing panics when
`index >= PERMUTATIONS`; the panic is modelled by `none`. -/
def indexSketch {P : Nat} (s : Sketch P) (i : Nat) : Option Nat :=
  if h : i < P then some (s ⟨i, h⟩) else none

/-- The number of slot indices at which two sketches hold equal words —
the sum `Σ (l == r) as usize` of `estimate_jaccard_index`. -/
def matchCount {P : Nat} (s t : Sketch P) : Nat :=
  (Finset.univ.filter fun i : Fin P => s i = t i).card

/-- `estimate_jaccard_index` (src/minhash.rs, lines 443-449):
`(Σ (l == r)) as f64 / PERMUTATIONS as f64`.  For `P > 0` the quotient is
the exact rational `matchCount / P` (the `f64` rounding of the quotient is
not modelled); for `P = 0` the IEEE division is `0.0 / 0.0 = NaN`,
modelled by `none`. -/
def estimateJaccard {P : Nat} (s t : Sketch P) : Option ℚ :=
  if P = 0 then none else some ((matchCount s t : ℚ) / (P : ℚ))

/-- The `core::sync::atomic::Ordering` argument of the atomic insertion
path. -/
inductive AtomicOrdering where
  | relaxed
  | acquire
  | release
  | acqrel
  | seqcst
deriving DecidableEq, Repr

/-- `fetch_insert_with_siphashes13` and its keyed variant (src/atomic.rs,
lines 236-248): one atomic `fetch_min(hash, ordering)` per slot against the
same hash stream as the plain insert.  The memory ordering only selects
fencing; it never changes the stored value, so the sequential value
semantics does not depend on it. -/
def fetchInsert (w : Width) {P : Nat} (_ord : AtomicOrdering) (s : Sketch P) (seed : Nat) :
    Sketch P :=
  fun i => min (s i) (hashAt w seed i.val)

/-- A single mutating operation on a sketch: one `insert_with_*` call
(abstracted by its digest) or one merge `&=` with another sketch. -/
inductive MutOp (P : Nat) where
  | ins (seed : Nat)
  | mer (t : Sketch P)

/-- Apply one mutating operation. -/
def applyOp (w : Width) {P : Nat} (s : Sketch P) : MutOp P → Sketch P
  | .ins seed => insert w s seed
  | .mer t => merge s t

/-- Apply a whole lifetime of mutating operations, oldest first. -/
def applyOps (w : Width) {P : Nat} (s : Sketch P) (ops : List (MutOp P)) : Sketch P :=
  ops.foldl (applyOp w) s

/-- The advance transform of width `w`, as a self-map of the finite type
of `2 ^ w.bits` word values (each transform ends in a reduction modulo the
word size, so it maps words to words). -/
def xorshiftFin (w : Width) (x : Fin (2 ^ w.bits)) : Fin (2 ^ w.bits) :=
  ⟨xorshiftW w x.val, by cases w <;> exact Nat.mod_lt _ (Nat.two_pow_pos _)⟩

/-! ### Basic facts about the operations -/

theorem maximal_pos (w : Width) : 0 < maximal w := by
  cases w <;> decide

theorem insertList_apply_le (w : Width) {P : Nat} (seeds : List Nat) (s : Sketch P) (i : Fin P) :
    insertList w s seeds i ≤ s i := by
  induction seeds generalizing s with
  | nil => exact le_rfl
  | cons a as ih =>
    calc insertList w (insert w s a) as i ≤ insert w s a i := ih _
    _ ≤ s i := min_le_left _ _

theorem applyOp_le (w : Width) {P : Nat} (s : Sketch P) (op : MutOp P) (i : Fin P) :
    applyOp w s op i ≤ s i := by
  cases op with
  | ins seed => exact min_le_left _ _
  | mer t => exact min_le_left _ _

theorem applyOps_le (w : Width) {P : Nat} (s : Sketch P) (ops : List (MutOp P)) (i : Fin P) :
    applyOps w s ops i ≤ s i := by
  induction ops generalizing s with
  | nil => exact le_rfl
  | cons op ops ih =>
    calc applyOps w (applyOp w s op) ops i ≤ applyOp w s op i := ih _
    _ ≤ s i := applyOp_le w s op i

/-! ### Bit-level facts about the xorshift rounds -/

theorem xor_shiftLeft_distrib (a b k : Nat) : (a ^^^ b) <<< k = (a <<< k) ^^^ (b <<< k) := by
  apply Nat.eq_of_testBit_eq
  intro i
  simp [Bool.and_xor_distrib_left]

theorem xor_shiftRight_distrib (a b k : Nat) : (a ^^^ b) >>> k = (a >>> k) ^^^ (b >>> k) := by
  apply Nat.eq_of_testBit_eq
  intro i
  simp

theorem xor_mod_two_pow (a b p : Nat) : (a ^^^ b) % 2 ^ p = (a % 2 ^ p) ^^^ (b % 2 ^ p) := by
  apply Nat.eq_of_testBit_eq
  intro i
  simp [Bool.and_xor_distrib_left]

theorem xor_xor_xor (a b c d : Nat) : (a ^^^ b) ^^^ (c ^^^ d) = (a ^^^ c) ^^^ (b ^^^ d) := by
  apply Nat.eq_of_testBit_eq
  intro i
  simp only [Nat.testBit_xor]
  cases a.testBit i <;> cases b.testBit i <;> cases c.testBit i <;> cases d.testBit i <;> rfl

theorem shiftRight_le_self (x k : Nat) : x >>> k ≤ x := by
  rw [Nat.shiftRight_eq_div_pow]
  exact Nat.div_le_self _ _

theorem shiftRight_eq_zero_of_lt {x k : Nat} (h : x < 2 ^ k) : x >>> k = 0 := by
  rw [Nat.shiftRight_eq_div_pow]
  exact Nat.div_eq_of_lt h

theorem shiftLeft_shiftRight_of_le (x : Nat) {a b : Nat} (hab : a ≤ b) :
    (x <<< a) >>> b = x >>> (b - a) := by
  apply Nat.eq_of_testBit_eq
  intro i
  have hcond : a ≤ b + i := by omega
  have hidx : b + i - a = b - a + i := by omega
  simp [Nat.testBit_shiftRight, Nat.testBit_shiftLeft, hcond, hidx]

theorem stepL_lt (wbits k x : Nat) : stepL wbits k x < 2 ^ wbits :=
  Nat.mod_lt _ (Nat.two_pow_pos _)

theorem stepR_lt (k : Nat) {wbits x : Nat} (hx : x < 2 ^ wbits) : stepR k x < 2 ^ wbits :=
  Nat.xor_lt_two_pow hx (lt_of_le_of_lt (shiftRight_le_self x k) hx)

theorem stepL_linear (wbits k x y : Nat) :
    stepL wbits k (x ^^^ y) = stepL wbits k x ^^^ stepL wbits k y := by
  unfold stepL
  rw [xor_shiftLeft_distrib, xor_xor_xor, xor_mod_two_pow]

theorem stepL_inj (wbits k : Nat) (hk : 0 < k) {x y : Nat} (hx : x < 2 ^ wbits)
    (hy : y < 2 ^ wbits) (h : stepL wbits k x = stepL wbits k y) : x = y := by
  apply Nat.eq_of_testBit_eq
  intro i
  induction i using Nat.strongRecOn with
  | ind i ih =>
    rcases Nat.lt_or_ge i wbits with hiw | hiw
    · have hb := congrArg (fun z => z.testBit i) h
      simp only [stepL, Nat.testBit_mod_two_pow, Nat.testBit_xor, Nat.testBit_shiftLeft] at hb
      rw [decide_eq_true hiw, Bool.true_and, Bool.true_and] at hb
      rcases Nat.lt_or_ge i k with hik | hik
      · have hcond : ¬ (i ≥ k) := by omega
        simp only [decide_eq_false hcond, Bool.false_and, Bool.xor_false] at hb
        exact hb
      · have hIH : x.testBit (i - k) = y.testBit (i - k) := ih (i - k) (by omega)
        rw [hIH] at hb
        have hcancel := congrArg
          (fun b => Bool.xor b (decide (i ≥ k) && y.testBit (i - k))) hb
        simpa [Bool.xor_assoc] using hcancel
    · have hpow : 2 ^ wbits ≤ 2 ^ i := Nat.pow_le_pow_right (by norm_num) hiw
      rw [Nat.testBit_lt_two_pow (lt_of_lt_of_le hx hpow),
        Nat.testBit_lt_two_pow (lt_of_lt_of_le hy hpow)]

theorem stepR_inj (k : Nat) (hk : 0 < k) {wbits x y : Nat} (hx : x < 2 ^ wbits)
    (hy : y < 2 ^ wbits) (h : stepR k x = stepR k y) : x = y := by
  have key : ∀ m i, wbits ≤ i + m → x.testBit i = y.testBit i := by
    intro m
    induction m with
    | zero =>
      intro i hi
      have hpow : 2 ^ wbits ≤ 2 ^ i := Nat.pow_le_pow_right (by norm_num) (by omega)
      rw [Nat.testBit_lt_two_pow (lt_of_lt_of_le hx hpow),
        Nat.testBit_lt_two_pow (lt_of_lt_of_le hy hpow)]
    | succ m ih =>
      intro i hi
      have hb := congrArg (fun z => z.testBit i) h
      simp only [stepR, Nat.testBit_xor, Nat.testBit_shiftRight] at hb
      have hup : x.testBit (k + i) = y.testBit (k + i) := ih (k + i) (by omega)
      rw [hup] at hb
      have hcancel := congrArg (fun b => Bool.xor b (y.testBit (k + i))) hb
      simpa [Bool.xor_assoc] using hcancel
  apply Nat.eq_of_testBit_eq
  intro i
  exact key wbits i (by omega)

theorem xorshift3_inj (wbits k1 k2 k3 : Nat) (h1 : 0 < k1) (h2 : 0 < k2) (h3 : 0 < k3)
    {x y : Nat} (hx : x < 2 ^ wbits) (hy : y < 2 ^ wbits)
    (h : stepL wbits k3 (stepR k2 (stepL wbits k1 x)) =
      stepL wbits k3 (stepR k2 (stepL wbits k1 y))) : x = y := by
  have ha : stepL wbits k1 x < 2 ^ wbits := stepL_lt _ _ _
  have hb : stepL wbits k1 y < 2 ^ wbits := stepL_lt _ _ _
  have hra : stepR k2 (stepL wbits k1 x) < 2 ^ wbits := stepR_lt _ ha
  have hrb : stepR k2 (stepL wbits k1 y) < 2 ^ wbits := stepR_lt _ hb
  exact stepL_inj wbits k1 h1 hx hy (stepR_inj k2 h2 ha hb (stepL_inj wbits k3 h3 hra hrb h))

theorem stepL32_mod_sixteen (b : Nat) : stepL 32 5 b % 2 ^ 16 = stepL 16 5 (b % 2 ^ 16) := by
  apply Nat.eq_of_testBit_eq
  intro i
  simp only [stepL, Nat.testBit_mod_two_pow, Nat.testBit_xor, Nat.testBit_shiftLeft]
  by_cases hi : i < 16
  · have hi32 : i < 32 := by omega
    have hik : i - 5 < 16 := by omega
    simp [hi, hi32, hik]
  · simp [hi]

theorem xorshift16_decomp {x : Nat} (hx : x < 2 ^ 16) :
    xorshift16 x = stepL 16 5 (stepL 16 13 x ^^^ (x >>> 4)) := by
  have hx32 : x < 2 ^ 32 := lt_trans hx (by norm_num)
  have hsl : x <<< 13 < 2 ^ 32 := by
    rw [Nat.shiftLeft_eq]
    calc x * 2 ^ 13 < 2 ^ 16 * 2 ^ 13 := (Nat.mul_lt_mul_right (by norm_num)).mpr hx
    _ ≤ 2 ^ 32 := by norm_num
  have ha : stepL 32 13 x = x ^^^ (x <<< 13) :=
    Nat.mod_eq_of_lt (Nat.xor_lt_two_pow hx32 hsl)
  have hxr17 : x >>> 17 = 0 := shiftRight_eq_zero_of_lt (lt_trans hx (by norm_num))
  have hshift : (x <<< 13) >>> 17 = x >>> 4 := by
    have h1 := shiftLeft_shiftRight_of_le x (show 13 ≤ 17 by norm_num)
    simpa using h1
  have hb : stepR 17 (stepL 32 13 x) = (x ^^^ (x <<< 13)) ^^^ (x >>> 4) := by
    rw [ha]
    simp only [stepR, xor_shiftRight_distrib, hxr17, hshift, Nat.zero_xor]
  have hmod : ((x ^^^ (x <<< 13)) ^^^ (x >>> 4)) % 2 ^ 16 = stepL 16 13 x ^^^ (x >>> 4) := by
    have h1 : x % 2 ^ 16 = x := Nat.mod_eq_of_lt hx
    have h2 : (x >>> 4) % 2 ^ 16 = x >>> 4 :=
      Nat.mod_eq_of_lt (lt_of_le_of_lt (shiftRight_le_self x 4) hx)
    rw [xor_mod_two_pow, xor_mod_two_pow, h1, h2]
    congr 1
    rw [stepL, xor_mod_two_pow, h1]
  calc xorshift16 x = stepL 32 5 (stepR 17 (stepL 32 13 x)) % 2 ^ 16 := rfl
  _ = stepL 16 5 (stepR 17 (stepL 32 13 x) % 2 ^ 16) := stepL32_mod_sixteen _
  _ = stepL 16 5 (((x ^^^ (x <<< 13)) ^^^ (x >>> 4)) % 2 ^ 16) := by rw [hb]
  _ = stepL 16 5 (stepL 16 13 x ^^^ (x >>> 4)) := by rw [hmod]

theorem h16_linear (x y : Nat) :
    stepL 16 13 (x ^^^ y) ^^^ ((x ^^^ y) >>> 4) =
      (stepL 16 13 x ^^^ (x >>> 4)) ^^^ (stepL 16 13 y ^^^ (y >>> 4)) := by
  rw [stepL_linear, xor_shiftRight_distrib, xor_xor_xor]

theorem h16_inj {x y : Nat} (hx : x < 2 ^ 16) (hy : y < 2 ^ 16)
    (h : stepL 16 13 x ^^^ (x >>> 4) = stepL 16 13 y ^^^ (y >>> 4)) : x = y := by
  have hzero0 : stepL 16 13 (x ^^^ y) ^^^ ((x ^^^ y) >>> 4) = 0 := by
    rw [h16_linear x y, h, Nat.xor_self]
  have hdlt0 : x ^^^ y < 2 ^ 16 := Nat.xor_lt_two_pow hx hy
  obtain ⟨d, hd⟩ : ∃ d, d = x ^^^ y := ⟨x ^^^ y, rfl⟩
  rw [← hd] at hzero0 hdlt0
  have hEq : stepL 16 13 d = d >>> 4 := Nat.xor_eq_zero.mp hzero0
  have hhigh : ∀ j, 16 ≤ j → d.testBit j = false := fun j hj =>
    Nat.testBit_lt_two_pow (lt_of_lt_of_le hdlt0 (Nat.pow_le_pow_right (by norm_num) hj))
  have R : ∀ i, i < 16 → d.testBit i =
      (d.testBit (4 + i) ^^ (decide (i ≥ 13) && d.testBit (i - 13))) := by
    intro i hi
    have hbit := congrArg (fun z => z.testBit i) hEq
    simp only [stepL, Nat.testBit_mod_two_pow, Nat.testBit_xor, Nat.testBit_shiftLeft,
      Nat.testBit_shiftRight] at hbit
    rw [decide_eq_true hi, Bool.true_and] at hbit
    rw [← hbit]
    simp [Bool.xor_assoc]
  have b12 : d.testBit 12 = false := by simpa [hhigh 16 (by norm_num)] using R 12 (by norm_num)
  have b8 : d.testBit 8 = false := by simpa [b12] using R 8 (by norm_num)
  have b4 : d.testBit 4 = false := by simpa [b8] using R 4 (by norm_num)
  have b0 : d.testBit 0 = false := by simpa [b4] using R 0 (by norm_num)
  have b13 : d.testBit 13 = false := by
    simpa [b0, hhigh 17 (by norm_num)] using R 13 (by norm_num)
  have b9 : d.testBit 9 = false := by simpa [b13] using R 9 (by norm_num)
  have b5 : d.testBit 5 = false := by simpa [b9] using R 5 (by norm_num)
  have b1 : d.testBit 1 = false := by simpa [b5] using R 1 (by norm_num)
  have b14 : d.testBit 14 = false := by
    simpa [b1, hhigh 18 (by norm_num)] using R 14 (by norm_num)
  have b10 : d.testBit 10 = false := by simpa [b14] using R 10 (by norm_num)
  have b6 : d.testBit 6 = false := by simpa [b10] using R 6 (by norm_num)
  have b2 : d.testBit 2 = false := by simpa [b6] using R 2 (by norm_num)
  have b15 : d.testBit 15 = false := by
    simpa [b2, hhigh 19 (by norm_num)] using R 15 (by norm_num)
  have b11 : d.testBit 11 = false := by simpa [b15] using R 11 (by norm_num)
  have b7 : d.testBit 7 = false := by simpa [b11] using R 7 (by norm_num)
  have b3 : d.testBit 3 = false := by simpa [b7] using R 3 (by norm_num)
  have hdzero : d = 0 := by
    apply Nat.eq_of_testBit_eq
    intro i
    rw [Nat.zero_testBit]
    rcases Nat.lt_or_ge i 16 with hi | hi
    · interval_cases i <;> assumption
    · exact hhigh i hi
  refine Nat.xor_eq_zero.mp ?_
  rw [← hd]
  exact hdzero

theorem xorshift16_inj {x y : Nat} (hx : x < 2 ^ 16) (hy : y < 2 ^ 16)
    (h : xorshift16 x = xorshift16 y) : x = y := by
  rw [xorshift16_decomp hx, xorshift16_decomp hy] at h
  have hax : stepL 16 13 x ^^^ (x >>> 4) < 2 ^ 16 :=
    Nat.xor_lt_two_pow (stepL_lt _ _ _) (lt_of_le_of_lt (shiftRight_le_self x 4) hx)
  have hay : stepL 16 13 y ^^^ (y >>> 4) < 2 ^ 16 :=
    Nat.xor_lt_two_pow (stepL_lt _ _ _) (lt_of_le_of_lt (shiftRight_le_self y 4) hy)
  exact h16_inj hx hy (stepL_inj 16 5 (by norm_num) hax hay h)

theorem xorshiftW_lt (w : Width) (x : Nat) : xorshiftW w x < 2 ^ w.bits := by
  cases w with
  | w8 => exact stepL_lt 8 1 _
  | w16 => exact Nat.mod_lt _ (Nat.two_pow_pos _)
  | w32 => exact stepL_lt 32 5 _
  | w64 => exact stepL_lt 64 17 _

theorem xorshiftW_inj (w : Width) {x y : Nat} (hx : x < 2 ^ w.bits) (hy : y < 2 ^ w.bits)
    (h : xorshiftW w x = xorshiftW w y) : x = y := by
  cases w with
  | w8 => exact xorshift3_inj 8 3 7 1 (by norm_num) (by norm_num) (by norm_num) hx hy h
  | w16 => exact xorshift16_inj hx hy h
  | w32 => exact xorshift3_inj 32 13 17 5 (by norm_num) (by norm_num) (by norm_num) hx hy h
  | w64 => exact xorshift3_inj 64 13 7 17 (by norm_num) (by norm_num) (by norm_num) hx hy h

theorem xorshiftW_iterate_lt (w : Width) {x : Nat} (hx : x < 2 ^ w.bits) (n : Nat) :
    (xorshiftW w)^[n] x < 2 ^ w.bits := by
  induction n with
  | zero => simpa using hx
  | succ n _ =>
    rw [Function.iterate_succ_apply']
    exact xorshiftW_lt w _

theorem xorshiftW_iterate_inj (w : Width) (n : Nat) {x y : Nat} (hx : x < 2 ^ w.bits)
    (hy : y < 2 ^ w.bits) (h : (xorshiftW w)^[n] x = (xorshiftW w)^[n] y) : x = y := by
  induction n with
  | zero => simpa using h
  | succ n ih =>
    rw [Function.iterate_succ_apply', Function.iterate_succ_apply'] at h
    exact ih (xorshiftW_inj w (xorshiftW_iterate_lt w hx n) (xorshiftW_iterate_lt w hy n) h)

theorem initHash_lt (w : Width) (seed : Nat) : initHash w seed < 2 ^ w.bits :=
  Nat.mod_lt _ (Nat.two_pow_pos _)

theorem maximal_not_fixed (w : Width) : xorshiftW w (maximal w) ≠ maximal w := by
  cases w <;> decide

/-! ### Claim C7 — fresh sketches, empty/full boundaries -/

/-- C7 (counterexample): the claim asserts `is_full() == false` for a
fresh sketch at every permutation count including `P = 0`, but with zero
slots `is_full` is vacuously true: `MinHash::<u64, 0>::new().is_full()`
returns `true`. -/
theorem c7_counterexample : isFull (newSketch Width.w64 0) = true := by
  decide

/-- C7 (amended): a freshly constructed sketch is always empty, and it is
full exactly when `P = 0` (with at least one slot it is not full, because
`Word::MAX ≠ 0`; with zero slots both `is_empty` and `is_full` are
vacuously true). -/
theorem c7_new_empty_full (w : Width) (P : Nat) :
    isEmpty w (newSketch w P) = true ∧ (isFull (newSketch w P) = true ↔ P = 0) := by
  refine ⟨by simp [isEmpty, newSketch], ?_⟩
  constructor
  · intro h
    by_contra hP
    have h' := of_decide_eq_true h ⟨0, Nat.pos_of_ne_zero hP⟩
    simp only [newSketch] at h'
    have := maximal_pos w
    omega
  · intro hP
    subst hP
    exact decide_eq_true fun i => i.elim0

/-! ### Claim C3 — merge laws -/

/-- C3: the merge operator (elementwise minimum) is associative,
commutative and idempotent in both senses, and the fresh sketch is a left
identity for it on well-formed sketches. -/
theorem c3_merge_laws (w : Width) (P : Nat) (s t u : Sketch P) :
    merge (merge s t) u = merge s (merge t u) ∧
    merge s t = merge t s ∧
    merge (merge s t) t = merge s t ∧
    merge s s = s ∧
    (WF w s → merge (newSketch w P) s = s) := by
  refine ⟨?_, ?_, ?_, ?_, ?_⟩
  · funext i
    exact min_assoc _ _ _
  · funext i
    exact min_comm _ _
  · funext i
    simp [merge, min_assoc]
  · funext i
    exact min_self _
  · intro hWF
    funext i
    exact min_eq_right (hWF i)

/-- C3 (witness): the merge laws applied at a concrete width, count and
sketches, including the identity law with its well-formedness hypothesis
discharged by evaluation. -/
theorem c3_merge_laws_witness :
    merge (newSketch Width.w8 1) (newSketch Width.w8 1) = newSketch Width.w8 1 :=
  (c3_merge_laws Width.w8 1 (newSketch Width.w8 1) (newSketch Width.w8 1)
    (newSketch Width.w8 1)).2.2.2.2 (fun _ => le_rfl)

/-! ### Claim C4 — per-slot monotone non-increase -/

/-- C4: every mutating operation (an insert under any hash family and
keys, or a merge with any sketch) leaves each slot at most its previous
value, and over a whole lifetime of such operations each slot never
increases and never drops below zero. -/
theorem c4_monotone (w : Width) (P : Nat) (s : Sketch P) (i : Fin P) :
    (∀ op : MutOp P, applyOp w s op i ≤ s i) ∧
    (∀ ops : List (MutOp P), applyOps w s ops i ≤ s i ∧ 0 ≤ applyOps w s ops i) :=
  ⟨fun op => applyOp_le w s op i,
   fun ops => ⟨applyOps_le w s ops i, Nat.zero_le _⟩⟩

/-! ### Claim C6 — totality of the public interface -/

/-- C6 (counterexample): the claim includes position indexing with any
`usize` among the operations that cannot fail, but `minhash[5]` on a
2-slot sketch is an out-of-bounds array access, which panics (modelled by
`none`). -/
theorem c6_counterexample : indexSketch (newSketch Width.w64 2) 5 = none := by
  decide

/-- C6 (amended): `new`, `insert`, `may_contain`, `is_empty`, `is_full`,
`memory`, `merge` and `estimate_jaccard_index` are total functions of
their inputs, but indexing by position succeeds exactly for indices below
the permutation count and panics otherwise. -/
theorem c6_index_total_iff (P : Nat) (s : Sketch P) (i : Nat) :
    ((indexSketch s i).isSome = true ↔ i < P) ∧
    (∀ h : i < P, indexSketch s i = some (s ⟨i, h⟩)) := by
  constructor
  · constructor
    · intro hsome
      by_contra hlt
      simp [indexSketch, hlt] at hsome
    · intro hlt
      simp [indexSketch, hlt]
  · intro h
    simp [indexSketch, h]

/-- C6 (witness): indexing a one-slot sketch at position 0 succeeds and
returns the slot value. -/
theorem c6_index_total_iff_witness :
    indexSketch (newSketch Width.w8 1) 0 = some (maximal Width.w8) :=
  (c6_index_total_iff 1 (newSketch Width.w8 1) 0).2 (by decide)

/-! ### Claim C1 — no false negatives -/

/-- C1: after inserting a value into any sketch (the hash-family choice,
its keys and the value are modelled by the 64-bit digest `seed` they
produce), and after any number of further insertions of other values under
any families but no merges, `may_contain` of the value under the same hash
family and keys returns true. -/
theorem c1_no_false_negatives (w : Width) (P : Nat) (s : Sketch P) (seed : Nat)
    (seeds : List Nat) :
    mayContain w (insertList w (insert w s seed) seeds) seed = true := by
  refine decide_eq_true fun i => ?_
  calc insertList w (insert w s seed) seeds i ≤ insert w s seed i :=
    insertList_apply_le w seeds (insert w s seed) i
  _ ≤ hashAt w seed i.val := min_le_right _ _

/-! ### Claim C2 — the Jaccard estimator -/

/-- C2 (counterexample): the claim includes `P = 0`, but there the
estimator computes `0.0 / 0.0`, which is the `f64` NaN (modelled by
`none`), not a floating-point number in `[0, 1]`. -/
theorem c2_counterexample :
    estimateJaccard (newSketch Width.w64 0) (newSketch Width.w64 0) = none := rfl

/-- C2 (amended): for two sketches of the same word type and the same
permutation count `P ≥ 1`, the estimator returns the number of slot
indices at which the sketches agree divided by `P`, a value in `[0, 1]`;
at `P = 0` the division is `0.0 / 0.0 = NaN` instead. -/
theorem c2_estimate_jaccard (P : Nat) (hP : 0 < P) (s t : Sketch P) :
    estimateJaccard s t = some ((matchCount s t : ℚ) / (P : ℚ)) ∧
    ∀ q : ℚ, estimateJaccard s t = some q → 0 ≤ q ∧ q ≤ 1 := by
  have hPne : P ≠ 0 := Nat.pos_iff_ne_zero.mp hP
  have hle : matchCount s t ≤ P := by
    simpa [Finset.card_univ] using
      Finset.card_filter_le (Finset.univ : Finset (Fin P)) (fun i => s i = t i)
  refine ⟨by simp [estimateJaccard, hPne], ?_⟩
  intro q hq
  simp only [estimateJaccard, hPne, if_false, Option.some.injEq] at hq
  subst hq
  have hPQ : (0 : ℚ) < (P : ℚ) := by exact_mod_cast hP
  constructor
  · positivity
  · rw [div_le_one hPQ]
    exact_mod_cast hle

/-- C2 (witness): the amended estimator contract evaluated at `P = 1`,
with the positivity hypothesis discharged. -/
theorem c2_estimate_jaccard_witness :
    estimateJaccard (newSketch Width.w64 1) (newSketch Width.w64 1) =
      some ((matchCount (newSketch Width.w64 1) (newSketch Width.w64 1) : ℚ) /
        ((1 : Nat) : ℚ)) :=
  (c2_estimate_jaccard 1 (by decide) (newSketch Width.w64 1) (newSketch Width.w64 1)).1

/-! ### Claim C5 — the atomic insertion path refines the plain one -/

/-- C5: sequentially applying `fetch_insert` to a finite stream of values
starting from a fresh sketch — under any atomic memory ordering and the
same hash configuration as the plain path — leaves the slot array equal to
folding the plain `insert` over the same stream from `new()`. -/
theorem c5_atomic_refines_insert (w : Width) (P : Nat) (ord : AtomicOrdering)
    (seeds : List Nat) :
    seeds.foldl (fun s seed => fetchInsert w ord s seed) (newSketch w P) =
      insertList w (newSketch w P) seeds := rfl

/-! ### Claim C8 — bijectivity of the advance transform, distinctness of the stream -/

/-- C8 (counterexample): the claim asserts the `P` emitted permutation
values are pairwise distinct whenever `P` does not exceed the number of
distinct word values, but for the 64-bit seed `0` the mixed initial hash
is `0`, a fixed point of the xorshift, so the stream is constantly `0`:
already with `P = 2 ≤ 2^64` the values at indices `0 ≠ 1` coincide. -/
theorem c8_counterexample :
    (2 : Nat) ≤ 2 ^ Width.bits Width.w64 ∧ (0 : Nat) ≠ 1 ∧
      hashAt Width.w64 0 0 = hashAt Width.w64 0 1 := by
  refine ⟨by norm_num [Width.bits], by norm_num, ?_⟩
  rfl

/-- C8 (amended): for every word width the advance (xorshift) transform is
a bijection on the word domain; consequently, for a fixed seed the emitted
stream values are pairwise distinct whenever the transform does not return
the initial mixed hash to itself within fewer than `P` steps (it can do
so, e.g. for seed `0`, whose mixed hash is a fixed point). -/
theorem c8_xorshift_bijective_distinct :
    (∀ w : Width, Function.Bijective (xorshiftFin w)) ∧
    (∀ (w : Width) (seed P : Nat),
      (∀ k, k < P → 0 < k → (xorshiftW w)^[k] (initHash w seed) ≠ initHash w seed) →
      ∀ i j, i < P → j < P → i ≠ j → hashAt w seed i ≠ hashAt w seed j) := by
  constructor
  · intro w
    apply Function.Injective.bijective_of_finite
    intro a b hab
    exact Fin.ext (xorshiftW_inj w a.isLt b.isLt (congrArg Fin.val hab))
  · intro w seed P hper i j hi hj hij hcontra
    have h0lt : initHash w seed < 2 ^ w.bits := initHash_lt w seed
    have main : ∀ a b : Nat, a < b → b < P →
        (xorshiftW w)^[a + 1] (initHash w seed) ≠
          (xorshiftW w)^[b + 1] (initHash w seed) := by
      intro a b hab hbP heq
      have hsplit : (xorshiftW w)^[b + 1] (initHash w seed) =
          (xorshiftW w)^[a + 1] ((xorshiftW w)^[b - a] (initHash w seed)) := by
        rw [← Function.iterate_add_apply]
        congr 1
        omega
      rw [hsplit] at heq
      have hcan := xorshiftW_iterate_inj w (a + 1) h0lt
        (xorshiftW_iterate_lt w h0lt (b - a)) heq
      exact hper (b - a) (by omega) (by omega) hcan.symm
    rcases Nat.lt_or_ge i j with hlt | hge
    · exact main i j hlt hj hcontra
    · have hlt : j < i := by omega
      exact main j i hlt hi hcontra.symm

/-- C8 (witness): the distinctness part applied at width 8, seed 1 and
`P = 2`, with the no-early-return hypothesis discharged by evaluation. -/
theorem c8_xorshift_bijective_distinct_witness :
    hashAt Width.w8 1 0 ≠ hashAt Width.w8 1 1 :=
  c8_xorshift_bijective_distinct.2 Width.w8 1 2 (by decide) 0 1 (by norm_num) (by norm_num)
    (by norm_num)

/-! ### Claim C9 — narrow-width transforms -/

/-- C9 (counterexample): at input `1` the 8-bit transform disagrees with
the truncation of both wider transforms, so the 8-bit advance is not "the
corresponding wider transform applied and then truncated". -/
theorem c9_counterexample :
    xorshift8 1 ≠ xorshift16 1 % 2 ^ 8 ∧ xorshift8 1 ≠ xorshift32 1 % 2 ^ 8 := by
  decide

/-- C9 (amended): the 16-bit advance transform is exactly the 32-bit
transform applied to the zero-extended value and truncated to 16 bits, but
the 8-bit transform is its own three-shift xorshift (`<<3`, `>>7`, `<<1`),
and there are 8-bit words on which it disagrees with the truncation of
each wider transform. -/
theorem c9_narrow_transforms :
    (∀ x : Nat, xorshift16 x = xorshift32 x % 2 ^ 16) ∧
    (∀ x : Nat, xorshift8 x = stepL 8 1 (stepR 7 (stepL 8 3 x))) ∧
    (∃ x : Fin (2 ^ 8), xorshift8 x.val ≠ xorshift16 x.val % 2 ^ 8) ∧
    (∃ x : Fin (2 ^ 8), xorshift8 x.val ≠ xorshift32 x.val % 2 ^ 8) :=
  ⟨fun _ => rfl, fun _ => rfl, ⟨⟨1, by norm_num⟩, by decide⟩, ⟨⟨1, by norm_num⟩, by decide⟩⟩

/-! ### Claim C10 — one insert with at least two slots leaves the sketch non-empty -/

/-- C10: with at least two permutation slots, inserting any value (under
any hash family and keys, modelled by its digest) into any well-formed
sketch leaves `is_empty() == false`: the stream cannot be identically
`Word::MAX`, because `Word::MAX` is not a fixed point of the advance
transform. -/
theorem c10_insert_nonempty (w : Width) (P : Nat) (s : Sketch P) (seed : Nat)
    (hP : 2 ≤ P) (hWF : WF w s) :
    isEmpty w (insert w s seed) = false := by
  apply decide_eq_false
  intro hall
  have hmax : ∀ n : Nat, hashAt w seed n ≤ maximal w := fun n =>
    Nat.le_sub_one_of_lt (xorshiftW_iterate_lt w (initHash_lt w seed) (n + 1))
  have e0 : hashAt w seed 0 = maximal w := by
    have hs := hWF ⟨0, by omega⟩
    have hh := hmax 0
    have h0 := hall ⟨0, by omega⟩
    simp only [insert] at h0
    omega
  have e1 : hashAt w seed 1 = maximal w := by
    have hs := hWF ⟨1, by omega⟩
    have hh := hmax 1
    have h1 := hall ⟨1, by omega⟩
    simp only [insert] at h1
    omega
  have hstep : hashAt w seed 1 = xorshiftW w (hashAt w seed 0) := by
    show (xorshiftW w)^[1 + 1] (initHash w seed) =
      xorshiftW w ((xorshiftW w)^[0 + 1] (initHash w seed))
    rw [Function.iterate_succ_apply']
  rw [e0, e1] at hstep
  exact maximal_not_fixed w hstep.symm

/-- C10 (witness): a single insert into a fresh two-slot 8-bit sketch
leaves it non-empty, with both hypotheses discharged. -/
theorem c10_insert_nonempty_witness :
    isEmpty Width.w8 (insert Width.w8 (newSketch Width.w8 2) 0) = false :=
  c10_insert_nonempty Width.w8 2 (newSketch Width.w8 2) 0 (by norm_num) (fun _ => le_rfl)

end MinhashRs
